import Mathlib

set_option maxRecDepth 100000
set_option maxHeartbeats 2000000

/-!
Verification development for `find_audio.py`, a scanner that reads a raw disk
image in fixed-size blocks, classifies every block as empty, silence, noise or
audio, extracts the maximal contiguous runs of audio blocks and writes each run
as a raw file plus a WAV file with a canonical 44-byte header.

Modelling conventions: a byte string is a `List Nat`; Python float arithmetic
over the small integer statistics of `analyze_block` is modelled exactly by
rational numbers; `struct.pack` raises on an out-of-range value, so the packing
functions and `create_wav_header` return an `Option`.
-/

namespace FindAudio

/-- Sample rate constant of the X Air 16 (`SAMPLE_RATE` in `find_audio.py`). -/
def SAMPLE_RATE : Nat := 48000

/-- Bit depth constant (`BIT_DEPTH`). -/
def BIT_DEPTH : Nat := 16

/-- Channel count constant (`CHANNELS`). -/
def CHANNELS : Nat := 2

/-- Bytes per 16-bit sample (`BYTES_PER_SAMPLE`). -/
def BYTES_PER_SAMPLE : Nat := 2

/-- Analysis block size of 1 MiB (`BLOCK_SIZE = 1024 * 1024`). -/
def BLOCK_SIZE : Nat := 1024 * 1024

/-- The four classifications returned by `analyze_block`. -/
inductive BlockType
  | empty
  | silence
  | noise
  | audio
deriving DecidableEq, Repr

/-- Value of `struct.unpack("<h", bytes([b0, b1]))[0]`: a 16-bit signed
little-endian integer. -/
def unpackInt16LE (b0 b1 : Nat) : Int :=
  let u := b0 + 256 * b1
  if u < 32768 then (u : Int) else (u : Int) - 65536

/-- The sample loop of `analyze_block`: one 16-bit little-endian sample every
4 bytes (`range(0, min(len(data), 40000), 4)`), kept only when two bytes are
available (`if i + 2 <= len(data)`). -/
def extractSamples (data : List Nat) : List Int :=
  ((List.range ((min data.length 40000 + 3) / 4)).map (fun k => 4 * k)).filterMap
    (fun i =>
      if i + 2 ≤ data.length then some (unpackInt16LE (data.getD i 0) (data.getD (i + 1) 0))
      else none)

/-- Share of zero bytes in the block (`zero_ratio = zero_count / len(data)`). -/
def zeroFraction (data : List Nat) : ℚ := (data.count 0 : ℚ) / (data.length : ℚ)

/-- Mean of the samples (`avg = sum(samples) / len(samples)`). -/
def sampleAvg (samples : List Int) : ℚ := (samples.sum : ℚ) / (samples.length : ℚ)

/-- Population variance of the samples
(`variance = sum((s - avg) ** 2 for s in samples) / len(samples)`). -/
def sampleVariance (samples : List Int) : ℚ :=
  ((samples.map (fun s : Int => ((s : ℚ) - sampleAvg samples) ^ 2)).sum) / (samples.length : ℚ)

/-- Absolute successive differences
(`diffs = [abs(samples[i] - samples[i-1]) for i in range(1, len(samples))]`). -/
def sampleDiffs (samples : List Int) : List Nat :=
  (List.range (samples.length - 1)).map
    (fun i => (samples.getD (i + 1) 0 - samples.getD i 0).natAbs)

/-- Mean absolute successive difference
(`avg_diff = sum(diffs) / len(diffs) if diffs else 0`). -/
def avgDiff (samples : List Int) : ℚ :=
  if (sampleDiffs samples).length = 0 then 0
  else ((sampleDiffs samples).sum : ℚ) / ((sampleDiffs samples).length : ℚ)

/-- Peak absolute sample value (`max_val = max(abs(s) for s in samples)`);
`0` for an empty sample list. -/
def maxVal (samples : List Int) : Nat := (samples.map Int.natAbs).foldr max 0

/-- The smoothness statistic
(`smoothness = 1.0 - (avg_diff / (max_val * 2)) if max_val > 0 else 0`). -/
def smoothness (samples : List Int) : ℚ :=
  if 0 < maxVal samples then 1 - avgDiff samples / ((maxVal samples : ℚ) * 2) else 0

/-- The block classifier `analyze_block`, returning the classification and the
score, with its checks in source order. -/
def analyze_block (data : List Nat) : BlockType × ℚ :=
  if data.length < 1000 then (BlockType.empty, 0)
  else if 99 / 100 < zeroFraction data then (BlockType.empty, 0)
  else if 9 / 10 < zeroFraction data then (BlockType.silence, zeroFraction data)
  else if (extractSamples data).length < 100 then (BlockType.empty, 0)
  else if maxVal (extractSamples data) = 0 then (BlockType.silence, 0)
  else if sampleVariance (extractSamples data) < 1000 then
    (BlockType.silence, smoothness (extractSamples data))
  else if 3 / 10 < smoothness (extractSamples data) ∧
      10000 < sampleVariance (extractSamples data) then
    (BlockType.audio, smoothness (extractSamples data))
  else if smoothness (extractSamples data) < 2 / 10 then
    (BlockType.noise, smoothness (extractSamples data))
  else (BlockType.audio, smoothness (extractSamples data))

/-- The scan loop of `find_audio_blocks` over the per-block classifications:
the arguments are the classifications still to scan, the optional start of the
open run (`current_audio_start`) and the current block number (`block_num`).
A run closes with end `block_num - 1` on an audio to non-audio transition and
with the same formula at end-of-file. -/
def runLoop : List BlockType → Option Nat → Nat → List (Nat × Nat)
  | [], none, _ => []
  | [], some s, n => [(s, n - 1)]
  | b :: bs, none, n =>
    if b = BlockType.audio then runLoop bs (some n) (n + 1) else runLoop bs none (n + 1)
  | b :: bs, some s, n =>
    if b = BlockType.audio then runLoop bs (some s) (n + 1)
    else (s, n - 1) :: runLoop bs none (n + 1)

/-- Run extraction of `find_audio_blocks`: the `(start, end)` pairs appended to
`audio_blocks`, in order of appearance. -/
def find_audio_blocks (blocks : List BlockType) : List (Nat × Nat) := runLoop blocks none 0

/-- Length of the maximal all-audio prefix of a classification list. -/
def audioPrefixLen : List BlockType → Nat
  | [] => 0
  | b :: bs => if b = BlockType.audio then audioPrefixLen bs + 1 else 0

/-- The pair `(s, e)` delimits a maximal contiguous run of audio blocks: every
block from `s` to `e` is audio, the block before `s` (when there is one) is not
audio, and the block after `e` (when there is one) is not audio. -/
def isMaximalRun (blocks : List BlockType) (s e : Nat) : Prop :=
  s ≤ e ∧ e < blocks.length ∧
    (∀ i, s ≤ i → i ≤ e → blocks.getD i BlockType.empty = BlockType.audio) ∧
    (s = 0 ∨ blocks.getD (s - 1) BlockType.empty ≠ BlockType.audio) ∧
    (e + 1 = blocks.length ∨ blocks.getD (e + 1) BlockType.empty ≠ BlockType.audio)

/-- Little-endian bytes of `struct.pack("<I", v)`, failing outside `[0, 2^32)`
as `struct.pack` raises there. -/
def packU32LE (v : Nat) : Option (List Nat) :=
  if v < 4294967296 then some [v % 256, v / 256 % 256, v / 65536 % 256, v / 16777216 % 256]
  else none

/-- Little-endian bytes of `struct.pack("<H", v)`, failing outside `[0, 2^16)`. -/
def packU16LE (v : Nat) : Option (List Nat) :=
  if v < 65536 then some [v % 256, v / 256 % 256] else none

/-- The byte stream written by `create_wav_header` for raw contents `raw_data`:
the RIFF, WAVE, fmt and data chunks followed by the raw bytes, with every
`struct.pack` failure propagated as `none`.  The ASCII tags RIFF, WAVE,
`fmt ` and data are spelled as byte lists. -/
def create_wav_header (raw_data : List Nat) : Option (List Nat) := do
  let raw_size := raw_data.length
  let riffSize ← packU32LE (raw_size + 36)
  let fmtChunkSize ← packU32LE 16
  let audioFormat ← packU16LE 1
  let numChannels ← packU16LE CHANNELS
  let sampleRateBytes ← packU32LE SAMPLE_RATE
  let byteRate ← packU32LE (SAMPLE_RATE * CHANNELS * BYTES_PER_SAMPLE)
  let blockAlign ← packU16LE (CHANNELS * BYTES_PER_SAMPLE)
  let bitsPerSample ← packU16LE BIT_DEPTH
  let dataSize ← packU32LE raw_size
  return [82, 73, 70, 70] ++ riffSize ++ [87, 65, 86, 69] ++
    [102, 109, 116, 32] ++ fmtChunkSize ++ audioFormat ++ numChannels ++
    sampleRateBytes ++ byteRate ++ blockAlign ++ bitsPerSample ++
    [100, 97, 116, 97] ++ dataSize ++ raw_data

/-- Read back a 32-bit little-endian field at byte offset `off` of a written
file. -/
def readU32LE (wav : List Nat) (off : Nat) : Nat :=
  wav.getD off 0 + 256 * wav.getD (off + 1) 0 + 65536 * wav.getD (off + 2) 0 +
    16777216 * wav.getD (off + 3) 0

/-- Read back a 16-bit little-endian field at byte offset `off` of a written
file. -/
def readU16LE (wav : List Nat) (off : Nat) : Nat :=
  wav.getD off 0 + 256 * wav.getD (off + 1) 0

/-- Outcome of the `__main__` entry: usage exit, missing-input exit, or the
scan `find_audio_blocks(image_path, output_dir)`. -/
inductive MainOutcome
  | exitUsage
  | exitMissing (image_path : String)
  | scan (image_path output_dir : String)
deriving DecidableEq

/-- Path resolution of `__main__`: the hardcoded paths when
`USA_PERCORSI_MANUALI` is set, else the positional `sys.argv` arguments when at
least one is present, else `none` (the usage message path). -/
def resolvePaths (usaManuali : Bool) (percorsoImmagine cartellaOutput : String)
    (argv : List String) (defaultOutput : String) : Option (String × String) :=
  if usaManuali then some (percorsoImmagine, cartellaOutput)
  else if 2 ≤ argv.length then
    some (argv.getD 1 "", if 2 < argv.length then argv.getD 2 "" else defaultOutput)
  else none

/-- The checked decisions of `__main__` before `find_audio_blocks` runs: the
usage exit when no path resolves, then the single `os.path.exists` check on the
input path. -/
def mainLogic (usaManuali : Bool) (percorsoImmagine cartellaOutput : String)
    (argv : List String) (defaultOutput : String) (pathExists : String → Bool) : MainOutcome :=
  match resolvePaths usaManuali percorsoImmagine cartellaOutput argv defaultOutput with
  | none => MainOutcome.exitUsage
  | some (image_path, output_dir) =>
    if pathExists image_path then MainOutcome.scan image_path output_dir
    else MainOutcome.exitMissing image_path

/-- Exit code of the two early-exit outcomes (both `sys.exit(1)`); `none` when
the scan runs. -/
def exitCode : MainOutcome → Option Nat
  | MainOutcome.exitUsage => some 1
  | MainOutcome.exitMissing _ => some 1
  | MainOutcome.scan _ _ => none

/-- Concrete 1000-byte block with 950 zero bytes: zero share 0.95, between the
silence threshold 0.90 and the empty threshold 0.99. -/
def c4data : List Nat := List.replicate 950 0 ++ List.replicate 50 1

/-- Concrete 1000-byte block encoding a slow 16-bit ramp 0, 4, ..., 996 with
nonzero filler bytes: a sine-wave-like block with high smoothness and moderate
variance. -/
def c5data : List Nat :=
  (List.range 250).foldr (fun k acc => [4 * k % 256, 4 * k / 256, 7, 7] ++ acc) []

/-- Concrete 1000-byte block whose samples alternate between 1000 and -1000:
maximal successive differences, hence smoothness 0, as for a random block. -/
def c6data : List Nat :=
  (List.range 125).foldr (fun _ acc => [232, 3, 7, 7, 24, 252, 7, 7] ++ acc) []

/-- The 250 samples encoded by `c5data`: the ramp 0, 4, ..., 996. -/
def c5samples : List Int := (List.range 250).map (fun k => (4 * k : Int))

/-- The 250 samples encoded by `c6data`: alternating 1000 and -1000. -/
def c6samples : List Int :=
  (List.range 250).map (fun k => if k % 2 = 0 then (1000 : Int) else -1000)

/-- The 44 header bytes written by a successful `create_wav_header` call,
followed by the raw bytes, spelled out field by field: RIFF tag, RIFF size,
WAVE tag, fmt tag, fmt chunk size 16, PCM format 1, 2 channels, sample rate
48000, byte rate 192000, block align 4, bit depth 16, data tag, data size. -/
def wavBytes (raw : List Nat) : List Nat :=
  82 :: 73 :: 70 :: 70 ::
  (raw.length + 36) % 256 :: (raw.length + 36) / 256 % 256 ::
  (raw.length + 36) / 65536 % 256 :: (raw.length + 36) / 16777216 % 256 ::
  87 :: 65 :: 86 :: 69 :: 102 :: 109 :: 116 :: 32 ::
  16 :: 0 :: 0 :: 0 :: 1 :: 0 :: 2 :: 0 ::
  128 :: 187 :: 0 :: 0 :: 0 :: 238 :: 2 :: 0 :: 4 :: 0 :: 16 :: 0 ::
  100 :: 97 :: 116 :: 97 ::
  raw.length % 256 :: raw.length / 256 % 256 :: raw.length / 65536 % 256 ::
  raw.length / 16777216 % 256 :: raw

/-- Every member of a list of naturals is bounded by its max fold. -/
lemma mem_le_foldrMax (l : List Nat) (x : Nat) (hx : x ∈ l) : x ≤ l.foldr max 0 := by
  induction l with
  | nil => cases hx
  | cons a t ih =>
    simp only [List.foldr_cons]
    rcases List.mem_cons.mp hx with rfl | h
    · exact le_max_left _ _
    · exact le_trans (ih h) (le_max_right _ _)

/-- Every in-range sample is bounded in absolute value by `maxVal`. -/
lemma natAbs_le_maxVal (samples : List Int) (i : Nat) (hi : i < samples.length) :
    (samples.getD i 0).natAbs ≤ maxVal samples := by
  rw [List.getD_eq_getElem samples 0 hi]
  exact mem_le_foldrMax _ _ (List.mem_map_of_mem _ (List.getElem_mem hi))

/-- Every successive difference is at most twice the peak amplitude. -/
lemma sampleDiffs_le (samples : List Int) :
    ∀ d ∈ sampleDiffs samples, d ≤ 2 * maxVal samples := by
  intro d hd
  unfold sampleDiffs at hd
  rcases List.mem_map.mp hd with ⟨i, hir, rfl⟩
  have hi := List.mem_range.mp hir
  have h1 : (samples.getD (i + 1) 0).natAbs ≤ maxVal samples :=
    natAbs_le_maxVal samples (i + 1) (by omega)
  have h2 : (samples.getD i 0).natAbs ≤ maxVal samples := natAbs_le_maxVal samples i (by omega)
  have h3 := Int.natAbs_sub_le (samples.getD (i + 1) 0) (samples.getD i 0)
  omega

/-- The mean absolute successive difference is nonnegative. -/
lemma avgDiff_nonneg (samples : List Int) : 0 ≤ avgDiff samples := by
  unfold avgDiff
  split
  · exact le_refl 0
  · positivity

/-- The mean absolute successive difference is at most twice the peak
amplitude. -/
lemma avgDiff_le_two_maxVal (samples : List Int) :
    avgDiff samples ≤ (maxVal samples : ℚ) * 2 := by
  unfold avgDiff
  split
  · positivity
  · rename_i hne
    have hpos : (0 : ℚ) < ((sampleDiffs samples).length : ℚ) := by
      have := Nat.pos_of_ne_zero hne
      exact_mod_cast this
    rw [div_le_iff₀ hpos]
    have hb : (sampleDiffs samples).sum ≤ (sampleDiffs samples).length • (2 * maxVal samples) :=
      List.sum_le_card_nsmul _ _ (sampleDiffs_le samples)
    rw [smul_eq_mul] at hb
    have hb' : ((sampleDiffs samples).sum : ℚ) ≤
        ((sampleDiffs samples).length : ℚ) * (2 * (maxVal samples : ℚ)) := by exact_mod_cast hb
    linarith

/-- The smoothness statistic is nonnegative. -/
lemma smoothness_nonneg (samples : List Int) : 0 ≤ smoothness samples := by
  unfold smoothness
  split
  · rename_i hM
    have hMQ : (0 : ℚ) < (maxVal samples : ℚ) * 2 := by
      have : (0 : ℚ) < (maxVal samples : ℚ) := by exact_mod_cast hM
      linarith
    have h1 : avgDiff samples / ((maxVal samples : ℚ) * 2) ≤ 1 :=
      (div_le_one hMQ).mpr (avgDiff_le_two_maxVal samples)
    linarith
  · exact le_refl 0

/-- The smoothness statistic is at most one. -/
lemma smoothness_le_one (samples : List Int) : smoothness samples ≤ 1 := by
  unfold smoothness
  split
  · rename_i hM
    have hMQ : (0 : ℚ) ≤ (maxVal samples : ℚ) * 2 := by positivity
    have h1 : 0 ≤ avgDiff samples / ((maxVal samples : ℚ) * 2) :=
      div_nonneg (avgDiff_nonneg samples) hMQ
    linarith
  · norm_num

/-- The zero-byte share is nonnegative. -/
lemma zeroFraction_nonneg (data : List Nat) : 0 ≤ zeroFraction data := by
  unfold zeroFraction
  positivity

/-- The zero-byte share of a nonempty block is at most one. -/
lemma zeroFraction_le_one (data : List Nat) (h : data.length ≠ 0) : zeroFraction data ≤ 1 := by
  unfold zeroFraction
  have hpos : (0 : ℚ) < (data.length : ℚ) := by
    have := Nat.pos_of_ne_zero h
    exact_mod_cast this
  rw [div_le_one hpos]
  exact_mod_cast List.count_le_length 0 data

/-- A zero max fold forces every sample to vanish. -/
lemma eq_zero_of_maxVal_eq_zero (samples : List Int) (h : maxVal samples = 0) :
    ∀ s ∈ samples, s = 0 := by
  intro s hs
  have hle : s.natAbs ≤ maxVal samples := mem_le_foldrMax _ _ (List.mem_map_of_mem _ hs)
  omega

/-- The variance of an all-zero sample list vanishes. -/
lemma sampleVariance_eq_zero (samples : List Int) (h : ∀ s ∈ samples, s = 0) :
    sampleVariance samples = 0 := by
  have havg : sampleAvg samples = 0 := by
    unfold sampleAvg
    rw [List.sum_eq_zero h]
    norm_num
  unfold sampleVariance
  have h0 : (samples.map (fun s : Int => ((s : ℚ) - sampleAvg samples) ^ 2)).sum = 0 := by
    apply List.sum_eq_zero
    intro x hx
    rcases List.mem_map.mp hx with ⟨s, hs, rfl⟩
    rw [h s hs, havg]
    norm_num
  rw [h0, zero_div]

/-- When the sample sum is an exact integer multiple of the length, the
variance is the integer sum of squared deviations over the length. -/
lemma sampleVariance_eq_int (samples : List Int) (a : Int)
    (hsum : samples.sum = (samples.length : Int) * a) (hL : samples.length ≠ 0) :
    sampleVariance samples =
      ((samples.map (fun s : Int => (s - a) ^ 2)).sum : ℚ) / (samples.length : ℚ) := by
  have hL' : ((samples.length : ℚ)) ≠ 0 := Nat.cast_ne_zero.mpr hL
  have havg : sampleAvg samples = (a : ℚ) := by
    unfold sampleAvg
    rw [hsum]
    push_cast
    field_simp
  unfold sampleVariance
  rw [havg]
  congr 1
  have hmap : samples.map (fun s : Int => ((s : ℚ) - (a : ℚ)) ^ 2) =
      samples.map (fun s : Int => (((s - a) ^ 2 : Int) : ℚ)) := by
    apply List.map_congr_left
    intro s _
    push_cast
    ring
  rw [hmap]
  have h2 := map_list_sum (Int.castRingHom ℚ) (samples.map (fun s : Int => (s - a) ^ 2))
  simp only [Int.coe_castRingHom] at h2
  rw [List.map_map] at h2
  simp only [Function.comp_def] at h2
  exact h2.symm

/-- Closed form of the smoothness statistic when the peak is nonzero and there
is at least one successive difference. -/
lemma smoothness_eq (samples : List Int) (hM : maxVal samples ≠ 0)
    (hd : (sampleDiffs samples).length ≠ 0) :
    smoothness samples = 1 - ((sampleDiffs samples).sum : ℚ) /
      (((sampleDiffs samples).length : ℚ) * ((maxVal samples : ℚ) * 2)) := by
  unfold smoothness avgDiff
  rw [if_pos (Nat.pos_of_ne_zero hM), if_neg hd, div_div]

/-- C3: for every block of the configured 1 MiB block size whose bytes are all
zero, `analyze_block` returns classification `empty` (the zero share is 1,
above the 0.99 threshold). -/
theorem analyze_block_all_zero_empty (data : List Nat) (h1 : data.length = BLOCK_SIZE)
    (h2 : ∀ b ∈ data, b = 0) : analyze_block data = (BlockType.empty, 0) := by
  have hlen : ¬ data.length < 1000 := by rw [h1]; norm_num [BLOCK_SIZE]
  have hcount : data.count 0 = data.length :=
    List.count_eq_length.mpr (fun b hb => (h2 b hb).symm)
  have hone : zeroFraction data = 1 := by
    unfold zeroFraction
    rw [hcount]
    have hne : (data.length : ℚ) ≠ 0 := by rw [h1]; norm_num [BLOCK_SIZE]
    field_simp
  have hgt : 99 / 100 < zeroFraction data := by rw [hone]; norm_num
  unfold analyze_block
  rw [if_neg hlen, if_pos hgt]

/-- Witness for C3: the all-zero block of the configured size. -/
theorem analyze_block_all_zero_empty_witness :
    (List.replicate BLOCK_SIZE 0).length = BLOCK_SIZE ∧
      analyze_block (List.replicate BLOCK_SIZE 0) = (BlockType.empty, 0) :=
  ⟨List.length_replicate BLOCK_SIZE 0,
    analyze_block_all_zero_empty (List.replicate BLOCK_SIZE 0)
      (List.length_replicate BLOCK_SIZE 0) (fun _ hb => List.eq_of_mem_replicate hb)⟩

/-- C4: for every block of at least 1000 bytes whose zero-byte share is
strictly above 0.90 and at most 0.99, `analyze_block` returns `silence` with
the zero share as score. -/
theorem analyze_block_silence_ratio (data : List Nat) (h1 : 1000 ≤ data.length)
    (h2 : 9 / 10 < zeroFraction data) (h3 : zeroFraction data ≤ 99 / 100) :
    analyze_block data = (BlockType.silence, zeroFraction data) := by
  have hlen : ¬ data.length < 1000 := by omega
  have hn99 : ¬ 99 / 100 < zeroFraction data := not_lt.mpr h3
  unfold analyze_block
  rw [if_neg hlen, if_neg hn99, if_pos h2]

/-- Witness for C4: a 1000-byte block with exactly 950 zero bytes. -/
theorem analyze_block_silence_ratio_witness :
    9 / 10 < zeroFraction c4data ∧ zeroFraction c4data ≤ 99 / 100 ∧
      analyze_block c4data = (BlockType.silence, zeroFraction c4data) := by
  have hc : c4data.count 0 = 950 := by decide
  have hl : c4data.length = 1000 := by decide
  have hzf : zeroFraction c4data = 19 / 20 := by
    unfold zeroFraction
    rw [hc, hl]
    norm_num
  exact ⟨by rw [hzf]; norm_num, by rw [hzf]; norm_num,
    analyze_block_silence_ratio c4data (by rw [hl]) (by rw [hzf]; norm_num)
      (by rw [hzf]; norm_num)⟩

/-- C5: for every block of at least 1000 bytes with zero-byte share at most
0.90 yielding at least 100 samples, smoothness above 0.3 and variance above
10000 force classification `audio`. -/
theorem analyze_block_sine_audio (data : List Nat) (h1 : 1000 ≤ data.length)
    (h2 : zeroFraction data ≤ 9 / 10) (h3 : 100 ≤ (extractSamples data).length)
    (h4 : 3 / 10 < smoothness (extractSamples data))
    (h5 : 10000 < sampleVariance (extractSamples data)) :
    (analyze_block data).1 = BlockType.audio := by
  have hlen : ¬ data.length < 1000 := by omega
  have hn99 : ¬ 99 / 100 < zeroFraction data := not_lt.mpr (h2.trans (by norm_num))
  have hn90 : ¬ 9 / 10 < zeroFraction data := not_lt.mpr h2
  have hns : ¬ (extractSamples data).length < 100 := by omega
  have hmv : ¬ maxVal (extractSamples data) = 0 := by
    intro h0
    unfold smoothness at h4
    rw [if_neg (by omega : ¬ 0 < maxVal (extractSamples data))] at h4
    norm_num at h4
  have hnv : ¬ sampleVariance (extractSamples data) < 1000 := by
    intro hq
    linarith
  unfold analyze_block
  rw [if_neg hlen, if_neg hn99, if_neg hn90, if_neg hns, if_neg hmv, if_neg hnv,
    if_pos ⟨h4, h5⟩]

/-- Witness for C5: the 1000-byte ramp block `c5data`, whose smoothness is
497/498 and variance 83332. -/
theorem analyze_block_sine_audio_witness :
    3 / 10 < smoothness (extractSamples c5data) ∧
      (analyze_block c5data).1 = BlockType.audio := by
  have hS : extractSamples c5data = c5samples := by decide
  have hsm : smoothness (extractSamples c5data) = 497 / 498 := by
    rw [hS, smoothness_eq c5samples (by decide) (by decide)]
    rw [show (sampleDiffs c5samples).sum = 996 from by decide,
      show (sampleDiffs c5samples).length = 249 from by decide,
      show maxVal c5samples = 996 from by decide]
    norm_num
  have hvar : sampleVariance (extractSamples c5data) = 83332 := by
    rw [hS, sampleVariance_eq_int c5samples 498 (by decide) (by decide)]
    rw [show (c5samples.map (fun s : Int => (s - 498) ^ 2)).sum = 20833000 from by decide,
      show c5samples.length = 250 from by decide]
    norm_num
  have hzf : zeroFraction c5data ≤ 9 / 10 := by
    unfold zeroFraction
    rw [show c5data.count 0 = 68 from by decide, show c5data.length = 1000 from by decide]
    norm_num
  exact ⟨by rw [hsm]; norm_num,
    analyze_block_sine_audio c5data (by decide) hzf (by rw [hS]; decide)
      (by rw [hsm]; norm_num) (by rw [hvar]; norm_num)⟩

/-- C6: for every block of at least 1000 bytes with zero-byte share at most
0.90 yielding at least 100 samples, smoothness below 0.2 together with variance
at least 1000 forces classification `noise`, not `audio`. -/
theorem analyze_block_random_noise (data : List Nat) (h1 : 1000 ≤ data.length)
    (h2 : zeroFraction data ≤ 9 / 10) (h3 : 100 ≤ (extractSamples data).length)
    (h4 : smoothness (extractSamples data) < 2 / 10)
    (h5 : 1000 ≤ sampleVariance (extractSamples data)) :
    (analyze_block data).1 = BlockType.noise := by
  have hlen : ¬ data.length < 1000 := by omega
  have hn99 : ¬ 99 / 100 < zeroFraction data := not_lt.mpr (h2.trans (by norm_num))
  have hn90 : ¬ 9 / 10 < zeroFraction data := not_lt.mpr h2
  have hns : ¬ (extractSamples data).length < 100 := by omega
  have hmv : ¬ maxVal (extractSamples data) = 0 := by
    intro h0
    have hz := sampleVariance_eq_zero (extractSamples data) (eq_zero_of_maxVal_eq_zero _ h0)
    rw [hz] at h5
    norm_num at h5
  have hnv : ¬ sampleVariance (extractSamples data) < 1000 := not_lt.mpr h5
  have hna : ¬ (3 / 10 < smoothness (extractSamples data) ∧
      10000 < sampleVariance (extractSamples data)) := by
    rintro ⟨ha, _⟩
    linarith
  unfold analyze_block
  rw [if_neg hlen, if_neg hn99, if_neg hn90, if_neg hns, if_neg hmv, if_neg hnv, if_neg hna,
    if_pos h4]

/-- Witness for C6: the 1000-byte alternating block `c6data`, whose smoothness
is 0 and variance 1000000. -/
theorem analyze_block_random_noise_witness :
    smoothness (extractSamples c6data) < 2 / 10 ∧
      (analyze_block c6data).1 = BlockType.noise := by
  have hS : extractSamples c6data = c6samples := by decide
  have hsm : smoothness (extractSamples c6data) = 0 := by
    rw [hS, smoothness_eq c6samples (by decide) (by decide)]
    rw [show (sampleDiffs c6samples).sum = 498000 from by decide,
      show (sampleDiffs c6samples).length = 249 from by decide,
      show maxVal c6samples = 1000 from by decide]
    norm_num
  have hvar : sampleVariance (extractSamples c6data) = 1000000 := by
    rw [hS, sampleVariance_eq_int c6samples 0 (by decide) (by decide)]
    rw [show (c6samples.map (fun s : Int => (s - 0) ^ 2)).sum = 250000000 from by decide,
      show c6samples.length = 250 from by decide]
    norm_num
  have hzf : zeroFraction c6data ≤ 9 / 10 := by
    unfold zeroFraction
    rw [show c6data.count 0 = 0 from by decide, show c6data.length = 1000 from by decide]
    norm_num
  exact ⟨by rw [hsm]; norm_num,
    analyze_block_random_noise c6data (by decide) hzf (by rw [hS]; decide)
      (by rw [hsm]; norm_num) (by rw [hvar]; norm_num)⟩

/-- C10: for every input byte string the score returned by `analyze_block`
lies in the closed interval from 0 to 1: constant branches return 0, the
silence branch returns the zero share, and the smoothness value is bounded
because the mean absolute successive difference never exceeds twice the peak
amplitude. -/
theorem analyze_block_score_unit (data : List Nat) :
    0 ≤ (analyze_block data).2 ∧ (analyze_block data).2 ≤ 1 := by
  unfold analyze_block
  split_ifs with h1 h2 h3 h4 h5 h6 h7 h8
  · exact ⟨le_refl 0, zero_le_one⟩
  · exact ⟨le_refl 0, zero_le_one⟩
  · exact ⟨zeroFraction_nonneg data, zeroFraction_le_one data (by omega)⟩
  · exact ⟨le_refl 0, zero_le_one⟩
  · exact ⟨le_refl 0, zero_le_one⟩
  · exact ⟨smoothness_nonneg _, smoothness_le_one _⟩
  · exact ⟨smoothness_nonneg _, smoothness_le_one _⟩
  · exact ⟨smoothness_nonneg _, smoothness_le_one _⟩
  · exact ⟨smoothness_nonneg _, smoothness_le_one _⟩

/-- The audio prefix never exceeds the list length. -/
lemma audioPrefixLen_le (bs : List BlockType) : audioPrefixLen bs ≤ bs.length := by
  induction bs with
  | nil => simp [audioPrefixLen]
  | cons b t ih =>
    by_cases hb : b = BlockType.audio
    · simp [audioPrefixLen, hb]
      omega
    · simp [audioPrefixLen, hb]

/-- Every position inside the audio prefix is audio. -/
lemma getD_audioPrefixLen (bs : List BlockType) (i : Nat) (h : i < audioPrefixLen bs) :
    bs.getD i BlockType.empty = BlockType.audio := by
  induction bs generalizing i with
  | nil => simp [audioPrefixLen] at h
  | cons b t ih =>
    by_cases hb : b = BlockType.audio
    · cases i with
      | zero => simpa [List.getD_cons_zero]
      | succ j =>
        rw [List.getD_cons_succ]
        apply ih
        simp [audioPrefixLen, hb] at h
        omega
    · simp [audioPrefixLen, hb] at h

/-- The audio prefix stops at the end of the list or at a non-audio block. -/
lemma audioPrefixLen_stop (bs : List BlockType) :
    audioPrefixLen bs = bs.length ∨
      bs.getD (audioPrefixLen bs) BlockType.empty ≠ BlockType.audio := by
  induction bs with
  | nil => left; rfl
  | cons b t ih =>
    by_cases hb : b = BlockType.audio
    · rcases ih with h | h
      · left
        simp [audioPrefixLen, hb, h]
      · right
        have hK : audioPrefixLen (b :: t) = audioPrefixLen t + 1 := by
          simp [audioPrefixLen, hb]
        rw [hK, List.getD_cons_succ]
        exact h
    · right
      have hK : audioPrefixLen (b :: t) = 0 := by simp [audioPrefixLen, hb]
      rw [hK, List.getD_cons_zero]
      exact hb

/-- Shifting a maximal run across a non-audio head block. -/
lemma isMaximalRun_cons_nonaudio (b : BlockType) (bs : List BlockType)
    (hb : b ≠ BlockType.audio) (s e : Nat) :
    isMaximalRun (b :: bs) (s + 1) (e + 1) ↔ isMaximalRun bs s e := by
  unfold isMaximalRun
  simp only [List.length_cons, List.getD_cons_succ]
  constructor
  · rintro ⟨h1, h2, h3, h4, h5⟩
    refine ⟨by omega, by omega, ?_, ?_, ?_⟩
    · intro i his hie
      have := h3 (i + 1) (by omega) (by omega)
      simpa [List.getD_cons_succ] using this
    · rcases Nat.eq_zero_or_pos s with hs | hs
      · left; exact hs
      · right
        rcases h4 with h4 | h4
        · omega
        · obtain ⟨j, rfl⟩ : ∃ j, s = j + 1 := ⟨s - 1, by omega⟩
          simpa [List.getD_cons_succ, Nat.add_sub_cancel] using h4
    · rcases h5 with h5 | h5
      · left; omega
      · right
        simpa [List.getD_cons_succ] using h5
  · rintro ⟨h1, h2, h3, h4, h5⟩
    refine ⟨by omega, by omega, ?_, ?_, ?_⟩
    · intro i his hie
      obtain ⟨j, rfl⟩ : ∃ j, i = j + 1 := ⟨i - 1, by omega⟩
      rw [List.getD_cons_succ]
      exact h3 j (by omega) (by omega)
    · right
      rcases Nat.eq_zero_or_pos s with hs | hs
      · subst hs
        simpa [List.getD_cons_zero]
      · obtain ⟨j, rfl⟩ : ∃ j, s = j + 1 := ⟨s - 1, by omega⟩
        rcases h4 with h4 | h4
        · omega
        · simpa [List.getD_cons_succ, Nat.add_sub_cancel] using h4
    · rcases h5 with h5 | h5
      · left; omega
      · right
        simpa [List.getD_cons_succ] using h5

/-- No maximal run starts at a non-audio head block. -/
lemma not_isMaximalRun_zero_nonaudio (b : BlockType) (bs : List BlockType)
    (hb : b ≠ BlockType.audio) (e : Nat) : ¬ isMaximalRun (b :: bs) 0 e := by
  rintro ⟨h1, h2, h3, h4, h5⟩
  have := h3 0 (by omega) (by omega)
  rw [List.getD_cons_zero] at this
  exact hb this

/-- Shifting a maximal run across an audio head block: the shifted run must
not touch the head. -/
lemma isMaximalRun_cons_audio (bs : List BlockType) (s e : Nat) :
    isMaximalRun (BlockType.audio :: bs) (s + 1) (e + 1) ↔ 1 ≤ s ∧ isMaximalRun bs s e := by
  unfold isMaximalRun
  simp only [List.length_cons, List.getD_cons_succ]
  constructor
  · rintro ⟨h1, h2, h3, h4, h5⟩
    have hs1 : 1 ≤ s := by
      by_contra hs0
      have hs : s = 0 := by omega
      subst hs
      rcases h4 with h4 | h4
      · omega
      · rw [List.getD_cons_zero] at h4
        exact h4 rfl
    refine ⟨hs1, by omega, by omega, ?_, ?_, ?_⟩
    · intro i his hie
      have := h3 (i + 1) (by omega) (by omega)
      simpa [List.getD_cons_succ] using this
    · right
      obtain ⟨j, rfl⟩ : ∃ j, s = j + 1 := ⟨s - 1, by omega⟩
      rcases h4 with h4 | h4
      · omega
      · simpa [List.getD_cons_succ, Nat.add_sub_cancel] using h4
    · rcases h5 with h5 | h5
      · left; omega
      · right
        simpa [List.getD_cons_succ] using h5
  · rintro ⟨hs1, h1, h2, h3, h4, h5⟩
    refine ⟨by omega, by omega, ?_, ?_, ?_⟩
    · intro i his hie
      obtain ⟨j, rfl⟩ : ∃ j, i = j + 1 := ⟨i - 1, by omega⟩
      rw [List.getD_cons_succ]
      exact h3 j (by omega) (by omega)
    · right
      obtain ⟨j, rfl⟩ : ∃ j, s = j + 1 := ⟨s - 1, by omega⟩
      rcases h4 with h4 | h4
      · omega
      · simpa [List.getD_cons_succ, Nat.add_sub_cancel] using h4
    · rcases h5 with h5 | h5
      · left; omega
      · right
        simpa [List.getD_cons_succ] using h5

/-- The maximal run starting at an audio head block ends exactly at the end of
the audio prefix. -/
lemma isMaximalRun_zero_audio (bs : List BlockType) (e : Nat) :
    isMaximalRun (BlockType.audio :: bs) 0 e ↔ e = audioPrefixLen bs := by
  have hK : audioPrefixLen (BlockType.audio :: bs) = audioPrefixLen bs + 1 := by
    simp [audioPrefixLen]
  have hlen : (BlockType.audio :: bs).length = bs.length + 1 := List.length_cons _ _
  constructor
  · rintro ⟨h1, h2, h3, h4, h5⟩
    set K := audioPrefixLen (BlockType.audio :: bs) with hKdef
    have hKle := audioPrefixLen_le (BlockType.audio :: bs)
    have hlow : K ≤ e + 1 := by
      by_contra hlt
      push_neg at hlt
      have := getD_audioPrefixLen (BlockType.audio :: bs) (e + 1) (by omega)
      rcases h5 with h5 | h5
      · omega
      · exact h5 this
    have hhigh : e < K := by
      by_contra hge
      push_neg at hge
      rcases audioPrefixLen_stop (BlockType.audio :: bs) with hst | hst
      · omega
      · exact hst (h3 K (by omega) (by omega))
    omega
  · intro he
    subst he
    have hKle := audioPrefixLen_le bs
    refine ⟨by omega, by omega, ?_, Or.inl rfl, ?_⟩
    · intro i _ hie
      exact getD_audioPrefixLen (BlockType.audio :: bs) i (by omega)
    · rcases audioPrefixLen_stop (BlockType.audio :: bs) with hst | hst
      · left
        omega
      · right
        rw [hK] at hst
        exact hst

/-- Unfolding the scan with an open run across the audio prefix: the open run
closes at the end of the prefix and the scan resumes after it. -/
lemma runLoop_some_eq (bs : List BlockType) : ∀ n s₀,
    runLoop bs (some s₀) n =
      (s₀, n + audioPrefixLen bs - 1) :: runLoop (bs.drop (audioPrefixLen bs)) none
        (n + audioPrefixLen bs) := by
  induction bs with
  | nil => intro n s₀; simp [runLoop, audioPrefixLen]
  | cons b t ih =>
    intro n s₀
    by_cases hb : b = BlockType.audio
    · have hK : audioPrefixLen (b :: t) = audioPrefixLen t + 1 := by
        simp [audioPrefixLen, hb]
      rw [show runLoop (b :: t) (some s₀) n = runLoop t (some s₀) (n + 1) from by
        simp [runLoop, hb]]
      rw [ih (n + 1) s₀, hK]
      rw [show (b :: t).drop (audioPrefixLen t + 1) = t.drop (audioPrefixLen t) from
        List.drop_succ_cons ..]
      rw [show n + 1 + audioPrefixLen t - 1 = n + (audioPrefixLen t + 1) - 1 from by omega,
        show n + 1 + audioPrefixLen t = n + (audioPrefixLen t + 1) from by omega]
    · have hK : audioPrefixLen (b :: t) = 0 := by simp [audioPrefixLen, hb]
      rw [show runLoop (b :: t) (some s₀) n = (s₀, n - 1) :: runLoop t none (n + 1) from by
        simp [runLoop, hb]]
      rw [hK, List.drop_zero]
      simp only [Nat.add_zero]
      rw [show runLoop (b :: t) none n = runLoop t none (n + 1) from by
        simp [runLoop, hb]]

/-- Membership in the scan output characterised by maximal runs: the closed
form for both loop states. -/
lemma runLoop_mem (bs : List BlockType) :
    (∀ n s e, ((s, e) ∈ runLoop bs none n ↔
      ∃ s' e', s = n + s' ∧ e = n + e' ∧ isMaximalRun bs s' e')) ∧
    (∀ n s₀ s e, ((s, e) ∈ runLoop bs (some s₀) n ↔
      (s = s₀ ∧ e = n + audioPrefixLen bs - 1) ∨
      ∃ s' e', 1 ≤ s' ∧ s = n + s' ∧ e = n + e' ∧ isMaximalRun bs s' e')) := by
  induction bs with
  | nil =>
    constructor
    · intro n s e
      simp only [runLoop, List.not_mem_nil, false_iff]
      rintro ⟨s', e', rfl, rfl, h1, h2, -⟩
      simp at h2
    · intro n s₀ s e
      simp only [runLoop, audioPrefixLen, List.mem_singleton, Prod.mk.injEq, Nat.add_zero]
      constructor
      · rintro ⟨rfl, rfl⟩
        exact Or.inl ⟨rfl, rfl⟩
      · rintro (⟨rfl, rfl⟩ | ⟨s', e', hs1, rfl, rfl, h1, h2, -⟩)
        · exact ⟨rfl, rfl⟩
        · simp at h2
  | cons b t ih =>
    by_cases hb : b = BlockType.audio
    · subst hb
      constructor
      · intro n s e
        rw [show runLoop (BlockType.audio :: t) none n = runLoop t (some n) (n + 1) from by
          simp [runLoop]]
        rw [ih.2 (n + 1) n s e]
        constructor
        · rintro (⟨rfl, rfl⟩ | ⟨s', e', hs1, rfl, rfl, hrun⟩)
          · exact ⟨0, audioPrefixLen t, by omega, by omega,
              (isMaximalRun_zero_audio t _).mpr rfl⟩
          · refine ⟨s' + 1, e' + 1, by omega, by omega, ?_⟩
            exact (isMaximalRun_cons_audio t s' e').mpr ⟨hs1, hrun⟩
        · rintro ⟨s', e', rfl, rfl, hrun⟩
          cases s' with
          | zero =>
            have he := (isMaximalRun_zero_audio t _).mp hrun
            left
            constructor
            · omega
            · omega
          | succ j =>
            have he1 : 1 ≤ e' := by
              rcases hrun with ⟨h1, -⟩
              omega
            obtain ⟨k, rfl⟩ : ∃ k, e' = k + 1 := ⟨e' - 1, by omega⟩
            have := (isMaximalRun_cons_audio t j k).mp hrun
            right
            exact ⟨j, k, this.1, by omega, by omega, this.2⟩
      · intro n s₀ s e
        rw [show runLoop (BlockType.audio :: t) (some s₀) n = runLoop t (some s₀) (n + 1)
          from by simp [runLoop]]
        rw [ih.2 (n + 1) s₀ s e]
        have hKc : audioPrefixLen (BlockType.audio :: t) = audioPrefixLen t + 1 := by
          simp [audioPrefixLen]
        constructor
        · rintro (⟨rfl, rfl⟩ | ⟨s', e', hs1, rfl, rfl, hrun⟩)
          · left
            constructor
            · rfl
            · omega
          · right
            refine ⟨s' + 1, e' + 1, by omega, by omega, by omega, ?_⟩
            exact (isMaximalRun_cons_audio t s' e').mpr ⟨hs1, hrun⟩
        · rintro (⟨rfl, he⟩ | ⟨s', e', hs1, rfl, rfl, hrun⟩)
          · left
            constructor
            · rfl
            · omega
          · obtain ⟨j, rfl⟩ : ∃ j, s' = j + 1 := ⟨s' - 1, by omega⟩
            have he1 : 1 ≤ e' := by
              rcases hrun with ⟨h1, -⟩
              omega
            obtain ⟨k, rfl⟩ : ∃ k, e' = k + 1 := ⟨e' - 1, by omega⟩
            have := (isMaximalRun_cons_audio t j k).mp hrun
            right
            exact ⟨j, k, this.1, by omega, by omega, this.2⟩
    · constructor
      · intro n s e
        rw [show runLoop (b :: t) none n = runLoop t none (n + 1) from by
          simp [runLoop, hb]]
        rw [ih.1 (n + 1) s e]
        constructor
        · rintro ⟨s', e', rfl, rfl, hrun⟩
          exact ⟨s' + 1, e' + 1, by omega, by omega,
            (isMaximalRun_cons_nonaudio b t hb s' e').mpr hrun⟩
        · rintro ⟨s', e', rfl, rfl, hrun⟩
          cases s' with
          | zero => exact absurd hrun (not_isMaximalRun_zero_nonaudio b t hb _)
          | succ j =>
            have he1 : 1 ≤ e' := by
              rcases hrun with ⟨h1, -⟩
              omega
            obtain ⟨k, rfl⟩ : ∃ k, e' = k + 1 := ⟨e' - 1, by omega⟩
            have := (isMaximalRun_cons_nonaudio b t hb j k).mp hrun
            exact ⟨j, k, by omega, by omega, this⟩
      · intro n s₀ s e
        rw [show runLoop (b :: t) (some s₀) n = (s₀, n - 1) :: runLoop t none (n + 1) from by
          simp [runLoop, hb]]
        have hK0 : audioPrefixLen (b :: t) = 0 := by
          simp [audioPrefixLen, hb]
        rw [List.mem_cons, ih.1 (n + 1) s e]
        constructor
        · rintro (heq | ⟨s', e', rfl, rfl, hrun⟩)
          · left
            rw [Prod.mk.injEq] at heq
            constructor
            · exact heq.1
            · rw [hK0]
              omega
          · right
            exact ⟨s' + 1, e' + 1, by omega, by omega, by omega,
              (isMaximalRun_cons_nonaudio b t hb s' e').mpr hrun⟩
        · rintro (⟨rfl, he⟩ | ⟨s', e', hs1, rfl, rfl, hrun⟩)
          · left
            rw [hK0] at he
            rw [Prod.mk.injEq]
            exact ⟨rfl, by omega⟩
          · obtain ⟨j, rfl⟩ : ∃ j, s' = j + 1 := ⟨s' - 1, by omega⟩
            have he1 : 1 ≤ e' := by
              rcases hrun with ⟨h1, -⟩
              omega
            obtain ⟨k, rfl⟩ : ∃ k, e' = k + 1 := ⟨e' - 1, by omega⟩
            have := (isMaximalRun_cons_nonaudio b t hb j k).mp hrun
            right
            exact ⟨j, k, by omega, by omega, this⟩

/-- Every pair reported by the scan in state `none` starts at or after `n`. -/
lemma runLoop_none_start_le (bs : List BlockType) (n : Nat) (p : Nat × Nat)
    (hp : p ∈ runLoop bs none n) : n ≤ p.1 := by
  obtain ⟨s', e', hs, -, -⟩ := ((runLoop_mem bs).1 n p.1 p.2).mp (by simpa using hp)
  omega

/-- The reported pairs are strictly ordered: each run ends before the next
begins. -/
lemma runLoop_pairwise (bs : List BlockType) :
    ∀ n, (runLoop bs none n).Pairwise (fun p q => p.2 < q.1) ∧
      ∀ s₀, s₀ < n → (runLoop bs (some s₀) n).Pairwise (fun p q => p.2 < q.1) := by
  induction bs with
  | nil =>
    intro n
    constructor
    · simp [runLoop]
    · intro s₀ _
      simp [runLoop]
  | cons b t ih =>
    intro n
    by_cases hb : b = BlockType.audio
    · subst hb
      constructor
      · rw [show runLoop (BlockType.audio :: t) none n = runLoop t (some n) (n + 1) from by
          simp [runLoop]]
        exact (ih (n + 1)).2 n (by omega)
      · intro s₀ hs₀
        rw [show runLoop (BlockType.audio :: t) (some s₀) n = runLoop t (some s₀) (n + 1)
          from by simp [runLoop]]
        exact (ih (n + 1)).2 s₀ (by omega)
    · constructor
      · rw [show runLoop (b :: t) none n = runLoop t none (n + 1) from by
          simp [runLoop, hb]]
        exact (ih (n + 1)).1
      · intro s₀ hs₀
        rw [show runLoop (b :: t) (some s₀) n = (s₀, n - 1) :: runLoop t none (n + 1) from by
          simp [runLoop, hb]]
        rw [List.pairwise_cons]
        constructor
        · intro q hq
          have := runLoop_none_start_le t (n + 1) q hq
          omega
        · exact (ih (n + 1)).1

/-- A nodup-style singleton extraction: a nonempty list whose members all equal
one irreflexive-ordered value is that singleton. -/
lemma eq_singleton_of_mem_of_pairwise (l : List (Nat × Nat)) (x : Nat × Nat)
    (hmem : x ∈ l) (hall : ∀ y ∈ l, y = x) (hpw : l.Pairwise (fun p q => p.2 < q.1))
    (hx : x.1 ≤ x.2) : l = [x] := by
  cases l with
  | nil => cases hmem
  | cons a t =>
    have ha : a = x := hall a (List.mem_cons_self _ _)
    subst ha
    have ht : t = [] := by
      cases t with
      | nil => rfl
      | cons c u =>
        have hc : c = a := hall c (List.mem_cons_of_mem _ (List.mem_cons_self _ _))
        rw [List.pairwise_cons] at hpw
        have := hpw.1 c (List.mem_cons_self _ _)
        rw [hc] at this
        omega
    rw [ht]

/-- C1: the scan loop of `find_audio_blocks` reports exactly the maximal
contiguous runs of audio blocks as start/end index pairs, in strictly
increasing order; in particular a classification sequence with exactly one
maximal audio run yields exactly the one pair with that run's boundaries. -/
theorem find_audio_blocks_maximal_runs (blocks : List BlockType) :
    (∀ s e, ((s, e) ∈ find_audio_blocks blocks ↔ isMaximalRun blocks s e)) ∧
    (find_audio_blocks blocks).Pairwise (fun p q => p.2 < q.1) ∧
    (∀ s e, isMaximalRun blocks s e →
      (∀ s' e', isMaximalRun blocks s' e' → s' = s ∧ e' = e) →
      find_audio_blocks blocks = [(s, e)]) := by
  have hmem : ∀ s e, ((s, e) ∈ find_audio_blocks blocks ↔ isMaximalRun blocks s e) := by
    intro s e
    unfold find_audio_blocks
    rw [(runLoop_mem blocks).1 0 s e]
    constructor
    · rintro ⟨s', e', rfl, rfl, hrun⟩
      simpa using hrun
    · intro hrun
      exact ⟨s, e, by omega, by omega, hrun⟩
  have hpw : (find_audio_blocks blocks).Pairwise (fun p q => p.2 < q.1) :=
    (runLoop_pairwise blocks 0).1
  refine ⟨hmem, hpw, ?_⟩
  intro s e hrun huniq
  apply eq_singleton_of_mem_of_pairwise _ (s, e) ((hmem s e).mpr hrun)
  · intro y hy
    have := (hmem y.1 y.2).mp (by simpa using hy)
    have h2 := huniq y.1 y.2 this
    rw [Prod.ext_iff]
    exact ⟨h2.1, h2.2⟩
  · exact hpw
  · exact hrun.1

/-- The length of a guarded `filterMap` is the count of indices passing the
guard. -/
lemma length_filterMap_ite (l : List Nat) (p : Nat → Prop) [DecidablePred p] (F : Nat → Int) :
    (l.filterMap (fun i => if p i then some (F i) else none)).length =
      l.countP (fun i => decide (p i)) := by
  induction l with
  | nil => rfl
  | cons a t ih =>
    by_cases hp : p a
    · simp [List.filterMap_cons, hp, ih, List.countP_cons]
    · simp [List.filterMap_cons, hp, ih, List.countP_cons]

/-- Counting the sample guard over an index range. -/
lemma countP_range_sample (R n : Nat) :
    (List.range R).countP (fun k => decide (4 * k + 2 ≤ n)) =
      if 2 ≤ n then min R ((n - 2) / 4 + 1) else 0 := by
  induction R with
  | zero => simp
  | succ R ih =>
    rw [List.range_succ, List.countP_append, ih]
    have hsing : (List.countP (fun k => decide (4 * k + 2 ≤ n)) [R]) =
        if 4 * R + 2 ≤ n then 1 else 0 := by
      simp [List.countP_cons]
    rw [hsing]
    by_cases h2 : 2 ≤ n
    · by_cases h4 : 4 * R + 2 ≤ n
      · rw [if_pos h2, if_pos h4, if_pos h2]
        omega
      · rw [if_pos h2, if_neg h4, if_pos h2]
        omega
    · have h4 : ¬ 4 * R + 2 ≤ n := by omega
      rw [if_neg h2, if_neg h4, if_neg h2]

/-- C7 (amended): `analyze_block` interprets one 16-bit sample every 4 bytes
over the first `min (len, 40000)` bytes subject to the two-byte guard
`i + 2 <= len`, so the sample count is `min ((len - 2) / 4 + 1) 10000` for
`len >= 2` and `0` otherwise, and never exceeds 10000.  The guard drops the
final index when `min (len, 40000)` is congruent to 1 mod 4, so the count can
be one below the ceiling of `min (len, 40000) / 4`. -/
theorem extractSamples_count (data : List Nat) :
    ((extractSamples data).length =
      if 2 ≤ data.length then min ((data.length - 2) / 4 + 1) 10000 else 0) ∧
    (extractSamples data).length ≤ 10000 := by
  have key : (extractSamples data).length =
      (List.range ((min data.length 40000 + 3) / 4)).countP
        (fun k => decide (4 * k + 2 ≤ data.length)) := by
    have step : extractSamples data =
        (List.range ((min data.length 40000 + 3) / 4)).filterMap
          (fun k => if 4 * k + 2 ≤ data.length then
            some (unpackInt16LE (data.getD (4 * k) 0) (data.getD (4 * k + 1) 0))
          else none) := by
      unfold extractSamples
      rw [List.filterMap_map]
      rfl
    rw [step, length_filterMap_ite]
  rw [key, countP_range_sample]
  constructor
  · by_cases h2 : 2 ≤ data.length
    · rw [if_pos h2, if_pos h2]
      omega
    · rw [if_neg h2, if_neg h2]
  · by_cases h2 : 2 ≤ data.length
    · rw [if_pos h2]
      omega
    · rw [if_neg h2]
      omega

/-- Counterexample to C7 as stated: on a 5-byte block the guard `i + 2 <= len`
drops the index 4, so only one sample is interpreted although the ceiling of
`min (len, 40000) / 4` is 2. -/
theorem extractSamples_count_cex :
    (extractSamples [0, 0, 0, 0, 0]).length ≠
      (min (List.length ([0, 0, 0, 0, 0] : List Nat)) 40000 + 3) / 4 := by
  decide

/-- A successful `create_wav_header` call returns exactly the spelled-out
header bytes followed by the raw bytes. -/
lemma create_wav_header_eq (raw : List Nat) (h : raw.length + 36 < 4294967296) :
    create_wav_header raw = some (wavBytes raw) := by
  have h2 : raw.length < 4294967296 := by omega
  simp [create_wav_header, packU32LE, packU16LE, wavBytes,
    SAMPLE_RATE, CHANNELS, BYTES_PER_SAMPLE, BIT_DEPTH, h, h2]

/-- C2 (amended): for every raw input of N bytes with N + 36 below 2^32,
`create_wav_header` produces a 44-byte canonical PCM header followed by the
same N raw bytes, and parsing the header back yields RIFF size N + 36, data
chunk size N, audio format 1 and the configured sample rate, channel count,
byte rate, block align and bit depth. -/
theorem create_wav_header_roundtrip (raw : List Nat) (h : raw.length + 36 < 4294967296) :
    ∃ wav, create_wav_header raw = some wav ∧
      wav.length = 44 + raw.length ∧
      wav.drop 44 = raw ∧
      wav.take 4 = [82, 73, 70, 70] ∧
      (wav.drop 8).take 4 = [87, 65, 86, 69] ∧
      readU32LE wav 4 = raw.length + 36 ∧
      readU16LE wav 20 = 1 ∧
      readU16LE wav 22 = CHANNELS ∧
      readU32LE wav 24 = SAMPLE_RATE ∧
      readU32LE wav 28 = SAMPLE_RATE * CHANNELS * BYTES_PER_SAMPLE ∧
      readU16LE wav 32 = CHANNELS * BYTES_PER_SAMPLE ∧
      readU16LE wav 34 = BIT_DEPTH ∧
      readU32LE wav 40 = raw.length := by
  have h2 : raw.length < 4294967296 := by omega
  refine ⟨wavBytes raw, create_wav_header_eq raw h, ?_, ?_, ?_, ?_, ?_, ?_, ?_, ?_, ?_, ?_,
    ?_, ?_⟩
  · simp only [wavBytes, List.length_cons]
    omega
  · simp only [wavBytes, List.drop_succ_cons, List.drop_zero]
  · simp only [wavBytes, List.take_succ_cons, List.take_zero]
  · simp only [wavBytes, List.drop_succ_cons, List.drop_zero, List.take_succ_cons,
      List.take_zero]
  · simp only [readU32LE, wavBytes, List.getD_cons_succ, List.getD_cons_zero]
    omega
  · simp only [readU16LE, wavBytes, List.getD_cons_succ, List.getD_cons_zero]
  · simp only [readU16LE, wavBytes, List.getD_cons_succ, List.getD_cons_zero, CHANNELS]
  · simp only [readU32LE, wavBytes, List.getD_cons_succ, List.getD_cons_zero, SAMPLE_RATE]
  · simp only [readU32LE, wavBytes, List.getD_cons_succ, List.getD_cons_zero, SAMPLE_RATE,
      CHANNELS, BYTES_PER_SAMPLE]
  · simp only [readU16LE, wavBytes, List.getD_cons_succ, List.getD_cons_zero, CHANNELS,
      BYTES_PER_SAMPLE]
  · simp only [readU16LE, wavBytes, List.getD_cons_succ, List.getD_cons_zero, BIT_DEPTH]
  · simp only [readU32LE, wavBytes, List.getD_cons_succ, List.getD_cons_zero]
    omega

/-- Counterexample to C2 as stated universally: for a raw input of 2^32 bytes
the RIFF size field overflows `struct.pack("<I", ...)`, so no WAV file is
produced. -/
theorem create_wav_header_overflow_cex :
    create_wav_header (List.replicate 4294967296 0) = none := by
  have key : ∀ L : List Nat, L.length = 4294967296 → create_wav_header L = none := by
    intro L hL
    simp [create_wav_header, packU32LE, hL]
  exact key _ (List.length_replicate _ _)

/-- Witness for C2 at the raw input with bytes 1, 2, 3. -/
theorem create_wav_header_roundtrip_witness :
    (List.length ([1, 2, 3] : List Nat) + 36 < 4294967296) ∧
      (∃ wav, create_wav_header [1, 2, 3] = some wav ∧
        wav.length = 44 + List.length ([1, 2, 3] : List Nat) ∧
        wav.drop 44 = [1, 2, 3] ∧
        wav.take 4 = [82, 73, 70, 70] ∧
        (wav.drop 8).take 4 = [87, 65, 86, 69] ∧
        readU32LE wav 4 = List.length ([1, 2, 3] : List Nat) + 36 ∧
        readU16LE wav 20 = 1 ∧
        readU16LE wav 22 = CHANNELS ∧
        readU32LE wav 24 = SAMPLE_RATE ∧
        readU32LE wav 28 = SAMPLE_RATE * CHANNELS * BYTES_PER_SAMPLE ∧
        readU16LE wav 32 = CHANNELS * BYTES_PER_SAMPLE ∧
        readU16LE wav 34 = BIT_DEPTH ∧
        readU32LE wav 40 = List.length ([1, 2, 3] : List Nat)) :=
  ⟨by norm_num, create_wav_header_roundtrip [1, 2, 3] (by norm_num)⟩

/-- C9: `create_wav_header` succeeds exactly when the raw size N satisfies
N + 36 below 2^32; for any run of at least 2^32 - 36 bytes the 32-bit RIFF
size pack fails and no file is produced. -/
theorem create_wav_header_success_iff (raw : List Nat) :
    (create_wav_header raw).isSome = true ↔ raw.length + 36 < 4294967296 := by
  constructor
  · intro hs
    by_contra hn
    rw [show create_wav_header raw = none from by
      simp [create_wav_header, packU32LE, hn]] at hs
    simp at hs
  · intro h
    rw [create_wav_header_eq raw h]
    rfl

/-- C8: once `__main__` has resolved an input path, the single existence check
decides everything before the scan: a missing input exits with code 1 and a
present input reaches the scan directly. -/
theorem mainLogic_missing_input (usaManuali : Bool) (percorsoImmagine cartellaOutput : String)
    (argv : List String) (defaultOutput : String) (pathExists : String → Bool)
    (image_path output_dir : String)
    (hres : resolvePaths usaManuali percorsoImmagine cartellaOutput argv defaultOutput =
      some (image_path, output_dir)) :
    (pathExists image_path = false →
      mainLogic usaManuali percorsoImmagine cartellaOutput argv defaultOutput pathExists =
        MainOutcome.exitMissing image_path ∧
      exitCode (MainOutcome.exitMissing image_path) = some 1) ∧
    (pathExists image_path = true →
      mainLogic usaManuali percorsoImmagine cartellaOutput argv defaultOutput pathExists =
        MainOutcome.scan image_path output_dir) := by
  unfold mainLogic
  rw [hres]
  constructor
  · intro hf
    simp [hf, exitCode]
  · intro ht
    simp [ht]

/-- Witness for C8: manual paths with a path-existence oracle that always
answers no. -/
theorem mainLogic_missing_input_witness :
    resolvePaths true "img.dmg" "out" [] "" = some ("img.dmg", "out") ∧
      mainLogic true "img.dmg" "out" [] "" (fun _ => false) =
        MainOutcome.exitMissing "img.dmg" :=
  ⟨rfl,
    ((mainLogic_missing_input true "img.dmg" "out" [] "" (fun _ => false)
      "img.dmg" "out" rfl).1 rfl).1⟩

end FindAudio
